import Mathlib

/-!
Shallow embedding of `aider/io.py`: the `FileContentCompleter` completion
engine, the multiline input capture loop of `InputOutput.get_input`, and the
transcript formatting methods of `InputOutput`.  Python strings are modelled
as Lean `String`s, Python `set`s as `Finset String`, the `defaultdict(list)`
alias table as an ordered association list, and the lazy generator of
completions as a `Finset` of the yielded completion texts (the spec declares
result order unspecified; every yield uses the same start offset
`-len(last_word)`, so the texts carry all the information).
-/

namespace Aider

/-- Model of Python `str.lower()` (per-character lowering; the sources only
ever contain ASCII, where `Char.toLower` agrees with Python). -/
def pyLower (s : String) : String := ⟨s.data.map Char.toLower⟩

/-- Model of Python `s.startswith(p)`. -/
def pyStartsWith (s p : String) : Bool := p.data.isPrefixOf s.data

/-- Model of Python `str.strip()`: drop whitespace from both ends. -/
def pyStrip (s : String) : String :=
  ⟨((s.data.dropWhile Char.isWhitespace).reverse.dropWhile Char.isWhitespace).reverse⟩

/-- Model of Python `str.rstrip()`: drop whitespace from the right end. -/
def pyRstrip (s : String) : String :=
  ⟨(s.data.reverse.dropWhile Char.isWhitespace).reverse⟩

/-- Helper for `pyWords`: split a character list on whitespace runs,
dropping empty pieces, accumulating the current word reversed. -/
def pyWordsAux : List Char → List Char → List (List Char)
  | [], cur => if cur = [] then [] else [cur.reverse]
  | c :: rest, cur =>
    if c.isWhitespace then
      if cur = [] then pyWordsAux rest []
      else cur.reverse :: pyWordsAux rest []
    else pyWordsAux rest (c :: cur)

/-- Model of Python `str.split()` with no argument: split on whitespace
runs and drop empty words. -/
def pyWords (s : String) : List String := (pyWordsAux s.data []).map (fun l => ⟨l⟩)

/-- Python `text[0]` (only used when the text is known non-empty). -/
def firstChar (s : String) : Char := s.data.headD ' '

/-- Python `text[-1]` (only used when the text is known non-empty). -/
def lastChar (s : String) : Char := s.data.getLastD ' '

/-- Python `words[-1]` on the split word list (used when non-empty). -/
def lastWord (s : String) : String := (pyWords s).getLastD ""

/-- Model of Python `text.endswith("\n")`. -/
def endsWithNewline (s : String) : Bool := s.data.getLastD ' ' == '\n'

/-- Model of `os.path.basename` on POSIX relative paths: the part of the
string after the last `/`. -/
def basename (s : String) : String :=
  ⟨(s.data.reverse.takeWhile (fun c => c != '/')).reverse⟩

/-- Model of `os.path.join(root, rel)` for a relative second component. -/
def joinPath (root rel : String) : String := root ++ "/" ++ rel

/-! ### The alias table `fname_to_rel_fnames`

Python builds a `defaultdict(list)`; we model it as an ordered association
list from basename keys to the list of relative paths appended under that
key, in insertion order. -/

/-- `m[b].append(p)` on the association-list model of `defaultdict(list)`:
extend the entry of `b` if present, else create it at the end. -/
def aliasInsert : List (String × List String) → String → String → List (String × List String)
  | [], b, p => [(b, [p])]
  | (k, v) :: rest, b, p =>
    if k = b then (k, v ++ [p]) :: rest else (k, v) :: aliasInsert rest b p

/-- The `__init__` loop building `fname_to_rel_fnames`: for each addable
relative path whose basename differs from the whole path, append the path
under its basename. -/
def mkAliasMap (addable_rel_fnames : List String) : List (String × List String) :=
  addable_rel_fnames.foldl
    (fun m p => if basename p ≠ p then aliasInsert m (basename p) p else m) []

/-- Python `self.fname_to_rel_fnames.get(w, [])` on the model. -/
def aliasGet : List (String × List String) → String → List String
  | [], _ => []
  | (k, v) :: rest, w => if k = w then v else aliasGet rest w

/-- The key list of the alias table (Python `set(self.fname_to_rel_fnames)`
up to the set conversion done at use sites). -/
def aliasKeys (m : List (String × List String)) : List String := m.map Prod.fst

/-- Specification view of an alias entry: the addable paths, in order, whose
basename is `b` and which differ from `b` itself. -/
def aliasPaths (addable_rel_fnames : List String) (b : String) : List String :=
  addable_rel_fnames.filter (fun p => decide (basename p ≠ p) && decide (basename p = b))

/-! ### The completer -/

/-- External `commands` collaborator: what `get_commands` returns and what
`get_command_completions` yields (as a set of completion texts). -/
structure Commands where
  get_commands : List String
  get_command_completions : String → String → Finset String

/-- State of a `FileContentCompleter` instance: constructor arguments plus
the two structures built in `__init__` (`fname_to_rel_fnames`, `words`). -/
structure FileContentCompleter where
  commands : Commands
  addable_rel_fnames : List String
  rel_fnames : List String
  fname_to_rel_fnames : List (String × List String)
  words : Finset String

/-- The token-extraction loop of `__init__` over `rel_fnames`: add each
relative path, read the file (`Except` models the uncaught I/O exception),
look up a lexer (`none` models `ClassNotFound`, which is caught and skips
token extraction), and otherwise add the text of every token whose type is
in `Token.Name` (the `Bool` component of a token models that test). -/
def buildWords (root : String) (fs : String → Except String String)
    (guess : String → String → Option (List (Bool × String))) :
    List String → Finset String → Except String (Finset String)
  | [], acc => .ok acc
  | f :: rest, acc =>
    match fs (joinPath root f) with
    | .error e => .error e
    | .ok content =>
      match guess (joinPath root f) content with
      | none => buildWords root fs guess rest (acc ∪ {f})
      | some toks =>
        buildWords root fs guess rest
          ((acc ∪ {f}) ∪ ((toks.filter (fun tk => tk.1)).map (fun tk => tk.2)).toFinset)

/-- `FileContentCompleter.__init__`: store the arguments, build the alias
table from the addable paths, seed `words` with the addable paths, then run
the token-extraction loop (whose I/O errors propagate). -/
def FileContentCompleter.init (root : String) (rel_fnames addable_rel_fnames : List String)
    (commands : Commands) (fs : String → Except String String)
    (guess : String → String → Option (List (Bool × String))) :
    Except String FileContentCompleter :=
  match buildWords root fs guess rel_fnames addable_rel_fnames.toFinset with
  | .error e => .error e
  | .ok w =>
    .ok { commands := commands, addable_rel_fnames := addable_rel_fnames,
          rel_fnames := rel_fnames, fname_to_rel_fnames := mkAliasMap addable_rel_fnames,
          words := w }

/-- A completer snapshot as `__init__` produces it, with the token
contribution of the in-context files abstracted as `extra`. -/
def mkCompleter (cm : Commands) (addable rel : List String) (extra : Finset String) :
    FileContentCompleter :=
  { commands := cm, addable_rel_fnames := addable, rel_fnames := rel,
    fname_to_rel_fnames := mkAliasMap addable,
    words := addable.toFinset ∪ rel.toFinset ∪ extra }

/-- The prefix test of the yield loop:
`word.lower().startswith(last_word.lower())`. -/
def prefMatch (word lw : String) : Bool := pyStartsWith (pyLower word) (pyLower lw)

/-- The yield loop of `get_completions`: for every candidate passing the
prefix test, yield its alias expansion when `fname_to_rel_fnames` has a
non-empty entry for it, else the candidate itself. -/
def yieldLoop (m : List (String × List String)) (lw : String) (cands : Finset String) :
    Finset String :=
  cands.biUnion (fun w =>
    if prefMatch w lw then
      if aliasGet m w = [] then {w} else (aliasGet m w).toFinset
    else ∅)

/-- `FileContentCompleter.get_completions` as a state transformer: returns
the set of yielded completion texts together with the post-call completer
state (the Python method mutates `self.words` through the alias
`candidates = self.words` in the free-text branch). -/
def get_completions (c : FileContentCompleter) (text : String) :
    Finset String × FileContentCompleter :=
  let ws := pyWords text
  if ws = [] then (∅, c)
  else if firstChar text = '/' then
    if ws.length = 1 ∧ (lastChar text).isWhitespace = false then
      (yieldLoop c.fname_to_rel_fnames (lastWord text) c.commands.get_commands.toFinset, c)
    else
      (c.commands.get_command_completions ⟨(ws.headD "").data.drop 1⟩ (lastWord text), c)
  else
    let cands := c.words ∪ (aliasKeys c.fname_to_rel_fnames).toFinset
    (yieldLoop c.fname_to_rel_fnames (lastWord text) cands, { c with words := cands })

/-- A trivial external command registry for concrete instances. -/
def cmNone : Commands := ⟨[], fun _ _ => ∅⟩

/-- The token contribution of one in-context file: empty when its read
fails (construction aborts anyway) or when no lexer is found, else the
texts of its `Token.Name` tokens. -/
def fileTokens (root : String) (fs : String → Except String String)
    (guess : String → String → Option (List (Bool × String))) (f : String) : Finset String :=
  match fs (joinPath root f) with
  | .error _ => ∅
  | .ok content =>
    match guess (joinPath root f) content with
    | none => ∅
    | some toks => ((toks.filter (fun tk => tk.1)).map (fun tk => tk.2)).toFinset

/-- A concrete file system on which every read succeeds. -/
def fsOkA : String → Except String String := fun _ => Except.ok "x"

/-- A concrete lexer lookup that never finds a grammar. -/
def gNone : String → String → Option (List (Bool × String)) := fun _ _ => none

/-! ### `InputOutput`: transcript formatting and appends -/

/-- The pure formatting core of `InputOutput.append_chat_history`:
blockquote first (strip, then prefix `"> "`), then linebreak (rstrip, then
append two spaces and a newline), then a final newline unless one is
already there. -/
def append_chat_history_text (text : String) (linebreak blockquote : Bool) : String :=
  let t1 := if blockquote then "> " ++ pyStrip text else text
  let t2 := if linebreak then pyRstrip t1 ++ "  \n" else t1
  if endsWithNewline t2 then t2 else t2 ++ "\n"

/-- The `InputOutput` state the transcript claims need: the accumulated
content of the chat history destination (`none` models
`chat_history_file is None`) and the `yes` flag. -/
structure InputOutput where
  chat_history : Option String
  yes : Bool

/-- `InputOutput.append_chat_history`: format the text and append it to the
destination when one is configured, else do nothing. -/
def append_chat_history (io : InputOutput) (text : String) (linebreak blockquote : Bool) :
    InputOutput :=
  match io.chat_history with
  | none => io
  | some h =>
    { io with chat_history := some (h ++ append_chat_history_text text linebreak blockquote) }

/-- `InputOutput.confirm_ask`: `response` models what the external `prompt`
call returns (overridden by `"yes"` under the `yes` flag); the trimmed
question and trimmed response joined by one space are appended with
`linebreak=True, blockquote=True`; the return value is `none` for a blank
response, else whether the trimmed lowered response starts with `y`. -/
def confirm_ask (io : InputOutput) (question response : String) :
    InputOutput × Option Bool :=
  let res := if io.yes then "yes" else response
  let io2 := append_chat_history io (pyStrip question ++ " " ++ pyStrip res) true true
  if pyStrip res = "" then (io2, none)
  else (io2, some (pyStartsWith (pyLower (pyStrip res)) "y"))

/-- `InputOutput.prompt_ask`: same transcript discipline as `confirm_ask`,
returning the (possibly `yes`-overridden) response itself. -/
def prompt_ask (io : InputOutput) (question response : String) :
    InputOutput × String :=
  let res := if io.yes then "yes" else response
  (append_chat_history io (pyStrip question ++ " " ++ pyStrip res) true true, res)

/-- `InputOutput.tool_error`'s transcript effect: append the stripped
message with `linebreak=True, blockquote=True` unless it strips to empty
(the unconditional console print is external rendering, not modelled). -/
def tool_error (io : InputOutput) (message : String) : InputOutput :=
  if pyStrip message = "" then io
  else append_chat_history io (pyStrip message) true true

/-! ### The multiline capture loop of `InputOutput.get_input` -/

/-- The line-reading loop of `get_input`, fed a list of raw lines: the flag
is `multiline_input`, the accumulator is `inp`.  A line stripping to the
opening brace outside multiline mode turns the mode on; a line stripping to
the closing brace inside it finalizes the accumulator; other lines are
appended with a newline in multiline mode and are themselves the final
input otherwise.  `none` means the supplied lines ran out before the loop
finalized (the real loop would block on another read). -/
def multilineCapture : Bool → String → List String → Option String
  | _, _, [] => none
  | ml, inp, line :: rest =>
    if pyStrip line = "\x7b" ∧ ml = false then multilineCapture true inp rest
    else if pyStrip line = "\x7d" ∧ ml = true then some inp
    else if ml = true then multilineCapture ml (inp ++ line ++ "\n") rest
    else some line

/-- The logical input the spec predicts for body lines of a multiline
block: each line suffixed by a newline, concatenated. -/
def joinNL : List String → String
  | [] => ""
  | l :: rest => l ++ "\n" ++ joinNL rest

/-! ### Helper lemmas -/

/-- Mapping a function over both lists preserves the boolean prefix test. -/
theorem isPrefixOf_map (f : Char → Char) :
    ∀ l1 l2 : List Char, l1.isPrefixOf l2 = true → (l1.map f).isPrefixOf (l2.map f) = true := by
  intro l1
  induction l1 with
  | nil => intro l2 _; simp only [List.map_nil, List.isPrefixOf]
  | cons a as ih =>
    intro l2 h
    cases l2 with
    | nil => simp [List.isPrefixOf] at h
    | cons b bs =>
      simp only [List.isPrefixOf, Bool.and_eq_true, beq_iff_eq] at h
      simp only [List.map_cons, List.isPrefixOf, Bool.and_eq_true, beq_iff_eq]
      exact ⟨by rw [h.1], ih bs h.2⟩

/-- A plain prefix passes the case-insensitive prefix test of the yield
loop. -/
theorem prefMatch_of_startsWith {b lw : String} (h : pyStartsWith b lw = true) :
    prefMatch b lw = true := by
  simpa [prefMatch, pyStartsWith, pyLower] using isPrefixOf_map Char.toLower lw.data b.data h

/-- Lookup after an `aliasInsert`: the inserted path lands at the end of
the entry of its key and other entries are untouched. -/
theorem aliasGet_insert (m : List (String × List String)) (k p w : String) :
    aliasGet (aliasInsert m k p) w
      = if k = w then aliasGet m w ++ [p] else aliasGet m w := by
  induction m with
  | nil => by_cases h : k = w <;> simp [aliasInsert, aliasGet, h]
  | cons kv rest ih =>
    obtain ⟨k', v⟩ := kv
    by_cases hk : k' = k
    · subst hk
      by_cases hw : k' = w <;> simp [aliasInsert, aliasGet, hw]
    · by_cases hw : k' = w
      · subst hw
        have hkw : ¬k = k' := fun h => hk h.symm
        simp [aliasInsert, aliasGet, hk, hkw]
      · simp [aliasInsert, aliasGet, hk, hw, ih]

/-- Key membership after an `aliasInsert`. -/
theorem mem_aliasKeys_insert (m : List (String × List String)) (k p w : String) :
    w ∈ aliasKeys (aliasInsert m k p) ↔ w ∈ aliasKeys m ∨ w = k := by
  induction m with
  | nil => simp [aliasInsert, aliasKeys]
  | cons kv rest ih =>
    obtain ⟨k', v⟩ := kv
    by_cases hk : k' = k
    · subst hk
      simp [aliasInsert, aliasKeys]
      tauto
    · simp only [aliasInsert, if_neg hk, aliasKeys, List.map_cons, List.mem_cons] at ih ⊢
      tauto

/-- Membership in the specification view of an alias entry. -/
theorem mem_aliasPaths (addable : List String) (b q : String) :
    q ∈ aliasPaths addable b ↔ q ∈ addable ∧ basename q = b ∧ basename q ≠ q := by
  simp [aliasPaths, List.mem_filter]
  tauto

/-- Generalized characterization of lookups in the alias table built by the
`__init__` fold. -/
theorem aliasGet_mkAliasMap_aux (l : List String) :
    ∀ (m : List (String × List String)) (b : String),
      aliasGet (l.foldl (fun m p => if basename p ≠ p then aliasInsert m (basename p) p else m) m) b
        = aliasGet m b ++ aliasPaths l b := by
  induction l with
  | nil => intro m b; simp [aliasPaths]
  | cons p l ih =>
    intro m b
    simp only [List.foldl_cons]
    by_cases hp : basename p ≠ p
    · by_cases hb : basename p = b
      · subst hb
        rw [if_pos hp, ih, aliasGet_insert]
        simp [aliasPaths, List.filter_cons, hp]
      · rw [if_pos hp, ih, aliasGet_insert, if_neg hb]
        simp [aliasPaths, List.filter_cons, hb]
    · rw [if_neg hp, ih]
      simp only [not_not] at hp
      simp [aliasPaths, List.filter_cons, hp]

/-- The entry of `b` in the constructed alias table is exactly the list of
addable paths with basename `b` that differ from `b`. -/
theorem aliasGet_mkAliasMap (addable : List String) (b : String) :
    aliasGet (mkAliasMap addable) b = aliasPaths addable b := by
  have := aliasGet_mkAliasMap_aux addable [] b
  simpa [mkAliasMap, aliasGet] using this

/-- Generalized characterization of the key set of the alias table built by
the `__init__` fold. -/
theorem mem_aliasKeys_mkAliasMap_aux (l : List String) :
    ∀ (m : List (String × List String)) (b : String),
      b ∈ aliasKeys (l.foldl (fun m p => if basename p ≠ p then aliasInsert m (basename p) p else m) m)
        ↔ b ∈ aliasKeys m ∨ ∃ p ∈ l, basename p = b ∧ basename p ≠ p := by
  induction l with
  | nil => intro m b; simp
  | cons p l ih =>
    intro m b
    simp only [List.foldl_cons]
    by_cases hp : basename p ≠ p
    · rw [if_pos hp, ih]
      rw [mem_aliasKeys_insert]
      simp only [List.mem_cons]
      constructor
      · rintro ((h | h) | h)
        · exact Or.inl h
        · exact Or.inr ⟨p, Or.inl rfl, h.symm, hp⟩
        · obtain ⟨q, hq, h1, h2⟩ := h
          exact Or.inr ⟨q, Or.inr hq, h1, h2⟩
      · rintro (h | ⟨q, (rfl | hq), h1, h2⟩)
        · exact Or.inl (Or.inl h)
        · exact Or.inl (Or.inr h1.symm)
        · exact Or.inr ⟨q, hq, h1, h2⟩
    · rw [if_neg hp, ih]
      simp only [not_not] at hp
      constructor
      · rintro (h | ⟨q, hq, h1, h2⟩)
        · exact Or.inl h
        · exact Or.inr ⟨q, List.mem_cons_of_mem _ hq, h1, h2⟩
      · rintro (h | ⟨q, hq, h1, h2⟩)
        · exact Or.inl h
        · rcases List.mem_cons.mp hq with rfl | hq
          · exact absurd hp h2
          · exact Or.inr ⟨q, hq, h1, h2⟩

/-- The alias table has a key `b` exactly when some addable path other than
`b` itself has basename `b`. -/
theorem mem_aliasKeys_mkAliasMap (addable : List String) (b : String) :
    b ∈ aliasKeys (mkAliasMap addable) ↔ ∃ p ∈ addable, basename p = b ∧ p ≠ b := by
  have := mem_aliasKeys_mkAliasMap_aux addable [] b
  simp only [mkAliasMap] at *
  rw [this]
  simp only [aliasKeys, List.map_nil, List.not_mem_nil, false_or]
  constructor
  · rintro ⟨p, hp, h1, h2⟩
    exact ⟨p, hp, h1, fun h => h2 (by rw [h1, h])⟩
  · rintro ⟨p, hp, h1, h2⟩
    exact ⟨p, hp, h1, fun h => h2 (by rw [← h1, h])⟩

/-- `get_completions` in free-text mode: pool is `words` updated in place
with the alias keys; the updated pool is also the post-state `words`. -/
theorem get_completions_freetext (c : FileContentCompleter) (t : String)
    (h1 : pyWords t ≠ []) (h2 : firstChar t ≠ '/') :
    get_completions c t =
      (yieldLoop c.fname_to_rel_fnames (lastWord t)
        (c.words ∪ (aliasKeys c.fname_to_rel_fnames).toFinset),
       { c with words := c.words ∪ (aliasKeys c.fname_to_rel_fnames).toFinset }) := by
  simp [get_completions, h1, h2]

/-- `get_completions` in top-level command mode (one word, no trailing
whitespace): pool is the registered command list; the state is untouched. -/
theorem get_completions_command_single (c : FileContentCompleter) (t : String)
    (h1 : pyWords t ≠ []) (h2 : firstChar t = '/')
    (h3 : (pyWords t).length = 1) (h4 : (lastChar t).isWhitespace = false) :
    get_completions c t =
      (yieldLoop c.fname_to_rel_fnames (lastWord t) c.commands.get_commands.toFinset, c) := by
  simp [get_completions, h1, h2, h3, h4]

/-- Membership in the yield loop's result set: either a matching candidate
with an empty alias entry, or a member of the alias entry of some matching
candidate. -/
theorem mem_yieldLoop (m : List (String × List String)) (lw : String)
    (cands : Finset String) (x : String) :
    x ∈ yieldLoop m lw cands ↔
      ∃ w ∈ cands, prefMatch w lw = true ∧
        ((aliasGet m w = [] ∧ x = w) ∨ x ∈ aliasGet m w) := by
  simp only [yieldLoop, Finset.mem_biUnion]
  constructor
  · rintro ⟨w, hw, hx⟩
    by_cases hm : prefMatch w lw = true
    · rw [if_pos hm] at hx
      by_cases he : aliasGet m w = []
      · rw [if_pos he] at hx
        exact ⟨w, hw, hm, Or.inl ⟨he, Finset.mem_singleton.mp hx⟩⟩
      · rw [if_neg he] at hx
        exact ⟨w, hw, hm, Or.inr (List.mem_toFinset.mp hx)⟩
    · rw [if_neg hm] at hx
      exact absurd hx (Finset.not_mem_empty x)
  · rintro ⟨w, hw, hm, hcase⟩
    refine ⟨w, hw, ?_⟩
    rcases hcase with ⟨he, hx⟩ | hx
    · simp [hm, he, hx]
    · have he : aliasGet m w ≠ [] := fun h => by simp [h] at hx
      simp [hm, he, List.mem_toFinset.mpr hx]

/-- The prefix test depends on the last word only through its lowering. -/
theorem prefMatch_congr {lw1 lw2 : String} (h : pyLower lw1 = pyLower lw2) (w : String) :
    prefMatch w lw1 = prefMatch w lw2 := by
  simp [prefMatch, pyStartsWith, h]

/-- The yield loop depends on the last word only through its lowering. -/
theorem yieldLoop_congr (m : List (String × List String)) {lw1 lw2 : String}
    (h : pyLower lw1 = pyLower lw2) (cands : Finset String) :
    yieldLoop m lw1 cands = yieldLoop m lw2 cands := by
  unfold yieldLoop
  refine Finset.biUnion_congr rfl ?_
  intro w _
  rw [prefMatch_congr h]

/-- Helper for `C5_thm`: the multiline body loop appends each non-closing
line with a newline. -/
theorem C5_aux (ls : List String) :
    ∀ acc : String, (∀ l ∈ ls, pyStrip l ≠ "\x7d") →
      multilineCapture true acc (ls ++ ["\x7d"]) = some (acc ++ joinNL ls) := by
  induction ls with
  | nil =>
    intro acc _
    have h1 : pyStrip "\x7d" = "\x7d" := by decide
    simp [multilineCapture, h1, joinNL, String.append_empty]
  | cons l rest ih =>
    intro acc h
    have hl : pyStrip l ≠ "\x7d" := h l (List.mem_cons_self _ _)
    have step : multilineCapture true acc ((l :: rest) ++ ["\x7d"])
        = multilineCapture true (acc ++ l ++ "\n") (rest ++ ["\x7d"]) := by
      simp [multilineCapture, hl]
    rw [step, ih _ (fun x hx => h x (List.mem_cons_of_mem _ hx))]
    simp [joinNL, String.append_assoc]

/-- Appending the linebreak suffix always leaves a trailing newline. -/
theorem endsWithNewline_append (s : String) : endsWithNewline (s ++ "  \n") = true := by
  have hd : (s ++ "  \n").data = (s.data ++ [' ', ' ']) ++ ['\n'] := by
    show s.data ++ [' ', ' ', '\n'] = _
    simp
  simp [endsWithNewline, hd, List.getLastD_concat]

/-- Iterating `fs` errors over the loop: `buildWords` returns an error
exactly when reading some listed file fails. -/
theorem buildWords_error_iff (root : String) (fs : String → Except String String)
    (guess : String → String → Option (List (Bool × String))) :
    ∀ (l : List String) (acc : Finset String),
      (∃ e, buildWords root fs guess l acc = Except.error e)
        ↔ ∃ f ∈ l, ∃ e, fs (joinPath root f) = Except.error e := by
  intro l
  induction l with
  | nil => intro acc; simp [buildWords]
  | cons f rest ih =>
    intro acc
    cases hf : fs (joinPath root f) with
    | error e =>
      simp only [buildWords, hf]
      constructor
      · intro _
        exact ⟨f, List.mem_cons_self _ _, e, hf⟩
      · intro _
        exact ⟨e, rfl⟩
    | ok content =>
      have hnf : ¬∃ e, fs (joinPath root f) = Except.error e := by simp [hf]
      have hiff : ∀ acc' : Finset String,
          ((∃ e, buildWords root fs guess rest acc' = Except.error e)
            ↔ ∃ g ∈ f :: rest, ∃ e, fs (joinPath root g) = Except.error e) := by
        intro acc'
        rw [ih acc']
        constructor
        · rintro ⟨g, hg, he⟩
          exact ⟨g, List.mem_cons_of_mem _ hg, he⟩
        · rintro ⟨g, hg, he⟩
          rcases List.mem_cons.mp hg with rfl | hg
          · exact absurd he hnf
          · exact ⟨g, hg, he⟩
      cases hg : guess (joinPath root f) content with
      | none =>
        simp only [buildWords, hf, hg]
        exact hiff _
      | some toks =>
        simp only [buildWords, hf, hg]
        exact hiff _

/-- When every read succeeds, `buildWords` returns the seed set, the listed
paths, and the per-file token contributions. -/
theorem buildWords_ok (root : String) (fs : String → Except String String)
    (guess : String → String → Option (List (Bool × String))) :
    ∀ (l : List String) (acc : Finset String),
      (∀ f ∈ l, ∃ c, fs (joinPath root f) = Except.ok c) →
      buildWords root fs guess l acc
        = Except.ok (acc ∪ l.toFinset
            ∪ l.foldr (fun f s => fileTokens root fs guess f ∪ s) ∅) := by
  intro l
  induction l with
  | nil => intro acc _; simp [buildWords]
  | cons f rest ih =>
    intro acc h
    obtain ⟨content, hf⟩ := h f (List.mem_cons_self _ _)
    have hrest := fun acc' => ih acc' (fun x hx => h x (List.mem_cons_of_mem _ hx))
    cases hg : guess (joinPath root f) content with
    | none =>
      simp only [buildWords, hf, hg]
      rw [hrest]
      congr 1
      have hft : fileTokens root fs guess f = ∅ := by simp [fileTokens, hf, hg]
      rw [List.foldr_cons, hft]
      apply Finset.ext
      intro x
      simp [List.mem_cons]
      tauto
    | some toks =>
      simp only [buildWords, hf, hg]
      rw [hrest]
      congr 1
      have hft : fileTokens root fs guess f
          = ((toks.filter (fun tk => tk.1)).map (fun tk => tk.2)).toFinset := by
        simp [fileTokens, hf, hg]
      rw [List.foldr_cons, hft]
      apply Finset.ext
      intro x
      simp [List.mem_cons]
      tauto

/-! ### Claim theorems -/

/-- Claim C1, counterexample: `get_completions` is not free of side
effects.  On a completer whose addable set is `["dir/foo"]`, one free-text
call mutates the `words` set (it acquires the alias key `"foo"` through the
aliasing `candidates = self.words; candidates.update(...)`). -/
theorem C1_cex :
    ((get_completions (mkCompleter cmNone ["dir/foo"] [] ∅) "f").2).words
      ≠ (mkCompleter cmNone ["dir/foo"] [] ∅).words := by
  decide

/-- Claim C1, amended: `get_completions` never changes the alias map, the
command registry or the stored path lists, and leaves `words` unchanged
except in free-text mode, where its only effect is to add the alias-map
keys into `words`; that effect is idempotent and does not change the
result, so a repeated call against the resulting snapshot returns exactly
the same completions and the same state. -/
theorem C1_thm (c : FileContentCompleter) (t : String) :
    ((get_completions c t).2).fname_to_rel_fnames = c.fname_to_rel_fnames
    ∧ ((get_completions c t).2).commands = c.commands
    ∧ ((get_completions c t).2).addable_rel_fnames = c.addable_rel_fnames
    ∧ ((get_completions c t).2).rel_fnames = c.rel_fnames
    ∧ ((get_completions c t).2).words =
        (if pyWords t ≠ [] ∧ firstChar t ≠ '/'
         then c.words ∪ (aliasKeys c.fname_to_rel_fnames).toFinset else c.words)
    ∧ get_completions ((get_completions c t).2) t = get_completions c t := by
  by_cases h1 : pyWords t = []
  · simp [get_completions, h1]
  · by_cases h2 : firstChar t = '/'
    · by_cases h3 : (pyWords t).length = 1 ∧ (lastChar t).isWhitespace = false
      · simp [get_completions, h1, h2, h3]
      · simp [get_completions, h1, h2, h3]
    · rw [get_completions_freetext c t h1 h2]
      refine ⟨rfl, rfl, rfl, rfl, by simp [h1, h2], ?_⟩
      rw [get_completions_freetext _ t h1 h2]
      simp only []
      rw [Finset.union_assoc, Finset.union_self]

/-- Claim C2, counterexample: with addable paths `["foo", "dir/foo"]` the
constructed alias map has an entry for the basename `"foo"` even though
`"foo"` is itself a full relative path present in the candidate set. -/
theorem C2_cex :
    "foo" ∈ aliasKeys (mkAliasMap ["foo", "dir/foo"])
    ∧ ∃ c, FileContentCompleter.init "r" [] ["foo", "dir/foo"] cmNone
        (fun _ => .ok "") (fun _ _ => none) = .ok c
        ∧ c.fname_to_rel_fnames = mkAliasMap ["foo", "dir/foo"]
        ∧ "foo" ∈ c.words := by
  refine ⟨by decide, ⟨_, rfl, rfl, ?_⟩⟩
  decide

/-- Claim C2, amended: the alias map has an entry for a basename `b` iff
some addable path with basename `b` differs from `b` itself (the guard is
per-path, `fname != rel_fname`, not membership of `b` in the candidate
set); in particular, when every addable path with basename `b` is `b`
itself, no alias entry for `b` is created. -/
theorem C2_amended (addable : List String) (b : String) :
    (b ∈ aliasKeys (mkAliasMap addable) ↔ ∃ p ∈ addable, basename p = b ∧ p ≠ b)
    ∧ ((∀ p ∈ addable, basename p = b → p = b) → b ∉ aliasKeys (mkAliasMap addable)) := by
  refine ⟨mem_aliasKeys_mkAliasMap addable b, ?_⟩
  intro hall hmem
  obtain ⟨p, hp, hb1, hb2⟩ := (mem_aliasKeys_mkAliasMap addable b).mp hmem
  exact hb2 (hall p hp hb1)

/-- Claim C2 witness: a single-occurrence basename equal to its own path
gets no alias entry. -/
theorem C2_witness : "foo" ∉ aliasKeys (mkAliasMap ["foo"]) :=
  (C2_amended ["foo"] "foo").2 (by decide)

/-- Claim C3: if some addable path `p` has basename `b` and `b` is not
itself an addable path, then free-text completion on a last word that is a
prefix of `b` yields every addable path whose basename is `b`, and never
yields the bare basename `b`. -/
theorem C3_thm (cm : Commands) (addable rel : List String) (extra : Finset String)
    (t b p : String) (hp : p ∈ addable) (hb : basename p = b) (hnb : b ∉ addable)
    (h1 : pyWords t ≠ []) (h2 : firstChar t ≠ '/')
    (hpre : pyStartsWith b (lastWord t) = true) :
    (∀ q ∈ addable, basename q = b →
        q ∈ (get_completions (mkCompleter cm addable rel extra) t).1)
    ∧ b ∉ (get_completions (mkCompleter cm addable rel extra) t).1 := by
  have hbk : b ∈ aliasKeys (mkAliasMap addable) :=
    (mem_aliasKeys_mkAliasMap _ _).mpr ⟨p, hp, hb, fun h => hnb (h ▸ hp)⟩
  have hmatch : prefMatch b (lastWord t) = true := prefMatch_of_startsWith hpre
  have hgetb : aliasGet (mkAliasMap addable) b = aliasPaths addable b :=
    aliasGet_mkAliasMap _ _
  have hpmem : p ∈ aliasPaths addable b := by
    refine (mem_aliasPaths addable b p).mpr ⟨hp, hb, ?_⟩
    rw [hb]
    exact fun hh => hnb (hh ▸ hp)
  have hne : aliasPaths addable b ≠ [] := by
    intro h
    rw [h] at hpmem
    exact absurd hpmem (List.not_mem_nil p)
  rw [get_completions_freetext _ t h1 h2]
  simp only [mkCompleter]
  constructor
  · intro q hq hqb
    apply (mem_yieldLoop _ _ _ _).mpr
    refine ⟨b, ?_, hmatch, Or.inr ?_⟩
    · exact Finset.mem_union_right _ (List.mem_toFinset.mpr hbk)
    · rw [hgetb]
      refine (mem_aliasPaths addable b q).mpr ⟨hq, hqb, ?_⟩
      rw [hqb]
      exact fun hh => hnb (hh ▸ hq)
  · intro hmem
    obtain ⟨w, hw, hm, hc⟩ := (mem_yieldLoop _ _ _ _).mp hmem
    rcases hc with ⟨he, hbw⟩ | hbw
    · rw [← hbw, hgetb] at he
      exact hne he
    · have hbp : b ∈ aliasPaths addable w := by
        rw [← aliasGet_mkAliasMap]
        exact hbw
      exact hnb ((mem_aliasPaths _ _ _).mp hbp).1

/-- Claim C3 witness: with addable paths `["dir/foo", "sub/foo"]` and last
word `"fo"`, both full paths are yielded and the bare basename is not. -/
theorem C3_witness :
    "dir/foo" ∈ (get_completions (mkCompleter cmNone ["dir/foo", "sub/foo"] [] ∅) "fo").1
    ∧ "sub/foo" ∈ (get_completions (mkCompleter cmNone ["dir/foo", "sub/foo"] [] ∅) "fo").1
    ∧ "foo" ∉ (get_completions (mkCompleter cmNone ["dir/foo", "sub/foo"] [] ∅) "fo").1 := by
  obtain ⟨ha, hb⟩ := C3_thm cmNone ["dir/foo", "sub/foo"] [] ∅ "fo" "foo" "dir/foo"
    (by decide) (by decide) (by decide) (by decide) (by decide) (by decide)
  exact ⟨ha "dir/foo" (by decide) (by decide), ha "sub/foo" (by decide) (by decide), hb⟩

/-- Claim C4, counterexample: with registered command names
`["foo", "bar"]` (no leading slash), completing `"/fo"` yields the empty
set, not `{"foo"}`: the prefix test compares the whole last word `"/fo"`,
slash included, against the names. -/
theorem C4_cex :
    (get_completions (mkCompleter ⟨["foo", "bar"], fun _ _ => ∅⟩ [] [] ∅) "/fo").1 = ∅
    ∧ (get_completions (mkCompleter ⟨["foo", "bar"], fun _ _ => ∅⟩ [] [] ∅) "/fo").1
        ≠ {"foo"} := by
  decide

/-- Claim C4, amended: command names are registered carrying their leading
slash; with names `["/foo", "/bar"]`, completing `"/fo"` (single word, no
trailing space) yields exactly `{"/foo"}`. -/
theorem C4_amended :
    (get_completions (mkCompleter ⟨["/foo", "/bar"], fun _ _ => ∅⟩ [] [] ∅) "/fo").1
      = {"/foo"} := by
  decide

/-- Claim C5: for raw lines consisting of an opening-brace line, body lines
none of which strips to the closing brace, and a closing-brace line, the
capture loop finalizes to the body lines each suffixed by a newline with
both delimiter lines excluded (so an empty body finalizes to the empty
string). -/
theorem C5_thm (ls : List String) (h : ∀ l ∈ ls, pyStrip l ≠ "\x7d") :
    multilineCapture false "" ("\x7b" :: (ls ++ ["\x7d"])) = some (joinNL ls) := by
  have h1 : pyStrip "\x7b" = "\x7b" := by decide
  have step : multilineCapture false "" ("\x7b" :: (ls ++ ["\x7d"]))
      = multilineCapture true "" (ls ++ ["\x7d"]) := by
    simp [multilineCapture, h1]
  rw [step, C5_aux ls "" h, String.empty_append]

/-- Claim C5 witness: the spec's two concrete examples. -/
theorem C5_witness :
    multilineCapture false "" ["\x7b", "line1", "line2", "\x7d"] = some "line1\nline2\n"
    ∧ multilineCapture false "" ["\x7b", "\x7d"] = some "" := by
  constructor
  · exact (C5_thm ["line1", "line2"] (by decide)).trans (by decide)
  · exact (C5_thm [] (by decide)).trans (by decide)

/-- Claim C6: in free-text and top-level command mode the result set is
invariant under changing the letter case of the last word (candidate
filtering lowers both sides), and an ordinary candidate (one that is not an
alias key and occurs in no alias entry) is yielded, in its original casing,
iff its lowercase form starts with the lowercase form of the last word. -/
theorem C6_thm (c : FileContentCompleter) (t1 t2 : String)
    (hlow : pyLower (lastWord t1) = pyLower (lastWord t2)) :
    ((pyWords t1 ≠ [] ∧ firstChar t1 ≠ '/') → (pyWords t2 ≠ [] ∧ firstChar t2 ≠ '/') →
      (get_completions c t1).1 = (get_completions c t2).1)
    ∧ ((pyWords t1 ≠ [] ∧ firstChar t1 = '/' ∧ (pyWords t1).length = 1
          ∧ (lastChar t1).isWhitespace = false) →
       (pyWords t2 ≠ [] ∧ firstChar t2 = '/' ∧ (pyWords t2).length = 1
          ∧ (lastChar t2).isWhitespace = false) →
      (get_completions c t1).1 = (get_completions c t2).1)
    ∧ ((pyWords t1 ≠ [] ∧ firstChar t1 ≠ '/') → ∀ w,
        w ∈ c.words ∪ (aliasKeys c.fname_to_rel_fnames).toFinset →
        aliasGet c.fname_to_rel_fnames w = [] →
        (∀ u, w ∉ aliasGet c.fname_to_rel_fnames u) →
        (w ∈ (get_completions c t1).1 ↔ prefMatch w (lastWord t1) = true)) := by
  refine ⟨?_, ?_, ?_⟩
  · rintro ⟨h1, h2⟩ ⟨h3, h4⟩
    rw [get_completions_freetext c t1 h1 h2, get_completions_freetext c t2 h3 h4]
    exact yieldLoop_congr _ hlow _
  · rintro ⟨h1, h2, h3, h4⟩ ⟨h5, h6, h7, h8⟩
    rw [get_completions_command_single c t1 h1 h2 h3 h4,
        get_completions_command_single c t2 h5 h6 h7 h8]
    exact yieldLoop_congr _ hlow _
  · rintro ⟨h1, h2⟩ w hw hget hnoal
    rw [get_completions_freetext c t1 h1 h2]
    constructor
    · intro hmem
      obtain ⟨u, _, hmu, hcase⟩ := (mem_yieldLoop _ _ _ _).mp hmem
      rcases hcase with ⟨_, hwu⟩ | hwu
      · rw [hwu]
        exact hmu
      · exact absurd hwu (hnoal u)
    · intro hm
      exact (mem_yieldLoop _ _ _ _).mpr ⟨w, hw, hm, Or.inl ⟨hget, rfl⟩⟩

/-- Claim C6 witness: completing `"FO"` and `"fo"` against the token pool
`{"FooBar"}` gives the same results, containing `"FooBar"` as typed. -/
theorem C6_witness :
    (get_completions (mkCompleter cmNone [] [] {"FooBar"}) "FO").1
      = (get_completions (mkCompleter cmNone [] [] {"FooBar"}) "fo").1
    ∧ "FooBar" ∈ (get_completions (mkCompleter cmNone [] [] {"FooBar"}) "FO").1 := by
  have H := C6_thm (mkCompleter cmNone [] [] {"FooBar"}) "FO" "fo" (by decide)
  refine ⟨H.1 (by decide) (by decide), ?_⟩
  refine (H.2.2 (by decide) "FooBar" (by decide) (by decide) ?_).mpr (by decide)
  intro u
  simp [mkCompleter, mkAliasMap, aliasGet]

/-- Claim C7: `append_chat_history` applies blockquote (trim, prefix
`"> "`), then linebreak (strip trailing whitespace, append two spaces and a
newline), then a final newline exactly when the text does not already end
in one; in particular `append("hello", linebreak=True, blockquote=True)`
produces `"> hello  \n"`. -/
theorem C7_thm :
    append_chat_history_text "hello" true true = "> hello  \n"
    ∧ (∀ t, append_chat_history_text t true true = pyRstrip ("> " ++ pyStrip t) ++ "  \n")
    ∧ (∀ t, endsWithNewline t = true → append_chat_history_text t false false = t)
    ∧ (∀ t, endsWithNewline t = false → append_chat_history_text t false false = t ++ "\n") := by
  refine ⟨by decide, ?_, ?_, ?_⟩
  · intro t
    simp [append_chat_history_text, endsWithNewline_append]
  · intro t ht
    simp [append_chat_history_text, ht]
  · intro t ht
    simp [append_chat_history_text, ht]

/-- Claim C7 witness: the final-newline rule at `"a\n"` and `"a"`. -/
theorem C7_witness :
    append_chat_history_text "a\n" false false = "a\n"
    ∧ append_chat_history_text "a" false false = "a\n" := by
  refine ⟨C7_thm.2.2.1 "a\n" (by decide), (C7_thm.2.2.2 "a" (by decide)).trans (by decide)⟩

/-- Claim C8, counterexample: `confirm_ask` does not log the verbatim
question — it trims it.  For the question `" Q? "` and response `"y"` the
transcript entry differs from the one the claim predicts (verbatim question
joined to the trimmed response). -/
theorem C8_cex :
    ((confirm_ask ⟨some "", false⟩ " Q? " "y").1).chat_history
      ≠ some (append_chat_history_text (" Q? " ++ " " ++ pyStrip "y") true true) := by
  decide

/-- Claim C8, amended: for every question and response, `confirm_ask` and
`prompt_ask` append to the transcript, with `blockquote=True` and
`linebreak=True`, exactly the trimmed question and the trimmed response
joined by one space. -/
theorem C8_amended (h q r : String) :
    ((confirm_ask ⟨some h, false⟩ q r).1).chat_history
      = some (h ++ append_chat_history_text (pyStrip q ++ " " ++ pyStrip r) true true)
    ∧ ((prompt_ask ⟨some h, false⟩ q r).1).chat_history
      = some (h ++ append_chat_history_text (pyStrip q ++ " " ++ pyStrip r) true true) := by
  constructor
  · by_cases hr : pyStrip r = "" <;> simp [confirm_ask, append_chat_history, hr]
  · simp [prompt_ask, append_chat_history]

/-- Claim C9: candidate-index construction fails iff reading some
in-context file fails; on success the candidate set is the addable paths,
the in-context paths (kept even when no lexer is found, in which case that
file contributes no tokens) and the per-file token contributions. -/
theorem C9_thm (root : String) (rel addable : List String) (cm : Commands)
    (fs : String → Except String String)
    (guess : String → String → Option (List (Bool × String))) :
    ((∃ e, FileContentCompleter.init root rel addable cm fs guess = Except.error e)
      ↔ ∃ f ∈ rel, ∃ e, fs (joinPath root f) = Except.error e)
    ∧ (∀ c, FileContentCompleter.init root rel addable cm fs guess = Except.ok c →
        (∀ f ∈ rel, f ∈ c.words)
        ∧ c.words = addable.toFinset ∪ rel.toFinset
            ∪ rel.foldr (fun f s => fileTokens root fs guess f ∪ s) ∅) := by
  cases hb : buildWords root fs guess rel addable.toFinset with
  | error e =>
    have l1 : FileContentCompleter.init root rel addable cm fs guess = Except.error e := by
      simp [FileContentCompleter.init, hb]
    constructor
    · rw [← buildWords_error_iff root fs guess rel addable.toFinset]
      constructor
      · intro _
        exact ⟨e, hb⟩
      · intro _
        exact ⟨e, l1⟩
    · intro c hc
      rw [l1] at hc
      simp at hc
  | ok w =>
    have l1 : FileContentCompleter.init root rel addable cm fs guess
        = Except.ok ⟨cm, addable, rel, mkAliasMap addable, w⟩ := by
      simp [FileContentCompleter.init, hb]
    have hok : ∀ f ∈ rel, ∃ cc, fs (joinPath root f) = Except.ok cc := by
      intro f hf
      cases hv : fs (joinPath root f) with
      | ok cc => exact ⟨cc, rfl⟩
      | error e =>
        have herr : ∃ e, buildWords root fs guess rel addable.toFinset = Except.error e :=
          (buildWords_error_iff root fs guess rel addable.toFinset).mpr ⟨f, hf, e, hv⟩
        rw [hb] at herr
        obtain ⟨e', he'⟩ := herr
        simp at he'
    have hw : w = addable.toFinset ∪ rel.toFinset
        ∪ rel.foldr (fun f s => fileTokens root fs guess f ∪ s) ∅ := by
      have := buildWords_ok root fs guess rel addable.toFinset hok
      rw [hb] at this
      exact Except.ok.inj this
    constructor
    · constructor
      · rintro ⟨e, he⟩
        rw [l1] at he
        simp at he
      · intro hex
        obtain ⟨e', he'⟩ := (buildWords_error_iff root fs guess rel addable.toFinset).mpr hex
        rw [hb] at he'
        simp at he'
    · intro c hc
      rw [l1] at hc
      have hceq : (⟨cm, addable, rel, mkAliasMap addable, w⟩ : FileContentCompleter) = c :=
        Except.ok.inj hc
      subst hceq
      refine ⟨?_, hw⟩
      intro f hf
      show f ∈ w
      rw [hw]
      exact Finset.mem_union_left _ (Finset.mem_union_right _ (List.mem_toFinset.mpr hf))

/-- Claim C9 witness: an in-context file whose read succeeds but for which
no lexer is found still appears in the candidate set. -/
theorem C9_witness :
    ∃ c, FileContentCompleter.init "r" ["a.py"] [] cmNone fsOkA gNone = Except.ok c
      ∧ "a.py" ∈ c.words := by
  refine ⟨_, rfl, ?_⟩
  exact ((C9_thm "r" ["a.py"] [] cmNone fsOkA gNone).2 _ rfl).1 "a.py" (by decide)

/-- Claim C10: a message that strips to empty (whitespace-only, including
the empty string) leaves the transcript unchanged; any other message is
appended, stripped, with blockquote and linebreak formatting. -/
theorem C10_thm (h msg : String) (y : Bool) :
    (pyStrip msg = "" → (tool_error ⟨some h, y⟩ msg).chat_history = some h)
    ∧ (pyStrip msg ≠ "" → (tool_error ⟨some h, y⟩ msg).chat_history
        = some (h ++ append_chat_history_text (pyStrip msg) true true)) := by
  constructor
  · intro hm
    simp [tool_error, hm]
  · intro hm
    simp [tool_error, hm, append_chat_history]

/-- Claim C10 witness: a whitespace-only and a non-whitespace message. -/
theorem C10_witness :
    (tool_error ⟨some "H", false⟩ " \n ").chat_history = some "H"
    ∧ (tool_error ⟨some "H", false⟩ " boom ").chat_history
        = some ("H" ++ append_chat_history_text "boom" true true) := by
  refine ⟨(C10_thm "H" " \n " false).1 (by decide), ?_⟩
  exact ((C10_thm "H" " boom " false).2 (by decide)).trans (by decide)

end Aider
